/-
Verification of the ALD/CVD recipe-execution engine (ALDmof).

The engine lives in src/ressources/setup.py (relay control, log handling,
countdown, initialization, `Recipe` run loop, `end_recipe`) and
src/ALDmof.py (the STOP control and the header-line re-import).

We embed the engine shallowly:
* actuator and log side effects become an explicit event trace (`Ev`),
  a run being a `RunRes`: the list of events emitted in order, together
  with the Python exception (if any) that aborted the run;
* durations are rationals (Python floats are used only for arithmetic
  that stays exact on the values involved: sums and subtractions of
  user-entered second counts);
* the pipe-delimited header serialization and its re-parse are modelled
  on lists of characters, numerals through an explicit decimal printer
  and reader standing for Python str()/int() (times keep their canonical
  decimal text: Python guarantees float(str(x)) == x, so the textual
  field is what the round trip transports);
* the log file is a list of lines of characters; the in-place patch
  `replacement` is Python str.replace per line, re-implemented as
  `strReplace` (leftmost, non-overlapping).

UI-only effects (streamlit placeholders, showgraph, progress bars,
balloons) emit no events: they touch no actuator and no log file.
-/
import Mathlib

namespace ALDmof

/-! ## Relay universe (setup.py lines 34-40) -/

/-- Relays attribution from setup.py: the configured actuator universe.
Kept in source order; each actuator id maps to its relay number. -/
def relays : List (String × Nat) :=
  [("V1", 1), ("V2", 2), ("V3", 3), ("Ar reactor", 4), ("Turn OFF Ar bypass", 5)]

/-- Dictionary lookup relays[gas]: some relay number, or none (Python KeyError). -/
def lookupRelay (gas : String) : Option Nat :=
  (relays.find? (fun p => p.1 == gas)).map (fun p => p.2)

/-- Relay number of a known gas (0 as dummy for unknown ids, never used there). -/
def relayNum (gas : String) : Nat := (lookupRelay gas).getD 0

/-- sorted(relays.keys()) as Python computes it (lexicographic string order). -/
def sortedGases : List String :=
  ["Ar reactor", "Turn OFF Ar bypass", "V1", "V2", "V3"]

/-! ## Event traces -/

/-- A Python exception aborting the run: KeyError from relays[gas] for an
unknown gas, or ZeroDivisionError. -/
inductive RunError where
  | keyError : String → RunError
  | zeroDiv : RunError
deriving DecidableEq

/-- Observable engine events, in emission order:
* relay n b - subprocess usbrelay RELAY_n=(1 if b else 0);
* cd t tot - a call countdown(t, tot);
* cycle i N - update_cycle(logname, i, N) on the progress log;
* logRecipe - write_recipe_to_log (the serialized header block);
* logStart - the start record written by write_to_log in Recipe;
* logEnd s - the terminal record written with ending = s. -/
inductive Ev where
  | relay : Nat → Bool → Ev
  | cd : ℚ → ℚ → Ev
  | cycle : Nat → Nat → Ev
  | logRecipe : Ev
  | logStart : Ev
  | logEnd : String → Ev
deriving DecidableEq

/-- Result of running a piece of the engine: the events it emitted, and the
exception that interrupted it, if any. -/
structure RunRes where
  events : List Ev
  err : Option RunError
deriving DecidableEq

/-- Sequencing: if the first part raised, the second never runs (its events
are not emitted); otherwise both event lists appear in order. -/
def RunRes.andThen (a b : RunRes) : RunRes :=
  match a.err with
  | some _ => a
  | none => ⟨a.events ++ b.events, b.err⟩

/-! ## Gas-line commands (setup.py lines 83-96) -/

/-- turn_ON: relays[gas] lookup then usbrelay RELAY_relnum=1. -/
def turn_ON (gas : String) : RunRes :=
  match lookupRelay gas with
  | some n => ⟨[.relay n true], none⟩
  | none => ⟨[], some (.keyError gas)⟩

/-- turn_OFF: relays[gas] lookup then usbrelay RELAY_relnum=0. -/
def turn_OFF (gas : String) : RunRes :=
  match lookupRelay gas with
  | some n => ⟨[.relay n false], none⟩
  | none => ⟨[], some (.keyError gas)⟩

/-- A Python for-loop issuing turn_ON (b = true) or turn_OFF (b = false) for
each gas in order; an exception stops the loop but keeps earlier effects. -/
def turnAll (b : Bool) : List String → RunRes
  | [] => ⟨[], none⟩
  | g :: gs => (if b then turn_ON g else turn_OFF g).andThen (turnAll b gs)

/-! ## Initialization (setup.py lines 260-281) -/

/-- The per-gas loop of initialize when initgas is non-empty: for gas in
sorted(relays.keys()): turn_OFF if gas not in initgas else turn_ON. -/
def initEach (initgas : List String) : List String → RunRes
  | [] => ⟨[], none⟩
  | g :: gs =>
      (if initgas.contains g then turn_ON g else turn_OFF g).andThen
        (initEach initgas gs)

/-- Relay commands of initialize: with an empty initgas every relay is turned
off; otherwise each relay is turned on or off according to initgas. -/
def initRelays (initgas : List String) : RunRes :=
  if initgas.length = 0 then turnAll false sortedGases
  else initEach initgas sortedGases

/-- initialize: the relay sweep, then (only when wait > 0) the initial
countdown(wait, tot). -/
def initSeq (initgas : List String) (wait tot : ℚ) : RunRes :=
  (initRelays initgas).andThen
    (if 0 < wait then ⟨[.cd wait tot], none⟩ else ⟨[], none⟩)

/-! ## Recipe main loop (setup.py lines 296-353) -/

/-- The deactivation test at the end of step step of cycle i (setup.py line
338): (i < N-1 and v not in valves[(step+1) % len(times)]) or
(i == N-1 and v not in fingas). -/
def offCond (valves : List (List String)) (times : List ℚ) (fingas : List String)
    (N i step : Nat) (v : String) : Bool :=
  (decide (i < N - 1) && !((valves.getD ((step + 1) % times.length) []).contains v))
    || (decide (i = N - 1) && !(fingas.contains v))

/-- One step of the inner loop: turn on every valve of the step, run the
step countdown, decrement the overall remaining time, then turn off the
valves selected by offCond. Returns the result and the new tot.
(Assumes, as the UI guarantees, len(valves) = len(times).) -/
def stepBody (valves : List (List String)) (times : List ℚ) (fingas : List String)
    (N i step : Nat) (tot : ℚ) : RunRes × ℚ :=
  let cur := valves.getD step []
  let r := (turnAll true cur).andThen ⟨[.cd (times.getD step 0) tot], none⟩
  let tot' := tot - times.getD step 0
  (r.andThen (turnAll false (cur.filter (offCond valves times fingas N i step))), tot')

/-- for step in range(len(times)), starting at index step with fuel
iterations remaining. -/
def stepsAux (valves : List (List String)) (times : List ℚ) (fingas : List String)
    (N i : Nat) : Nat → Nat → ℚ → RunRes × ℚ
  | 0, _, tot => (⟨[], none⟩, tot)
  | fuel + 1, step, tot =>
      let p := stepBody valves times fingas N i step tot
      let q := stepsAux valves times fingas N i fuel (step + 1) p.2
      (p.1.andThen q.1, q.2)

/-- for i in range(N): run the steps of cycle i, then update_cycle(i, N). -/
def cyclesAux (valves : List (List String)) (times : List ℚ) (fingas : List String)
    (N : Nat) : Nat → Nat → ℚ → RunRes × ℚ
  | 0, _, tot => (⟨[], none⟩, tot)
  | fuel + 1, i, tot =>
      let p := stepsAux valves times fingas N i times.length 0 tot
      let q := cyclesAux valves times fingas N fuel (i + 1) p.2
      ((p.1.andThen ⟨[.cycle i N], none⟩).andThen q.1, q.2)

/-- end_recipe (setup.py lines 284-289): the single command
usbrelay RELAY_9=0, then a streamlit rerun (no engine event). -/
def end_recipe : List Ev := [.relay 9 false]

/-- Finalization tail of Recipe (setup.py lines 341-353): turn on every
finalization gas, countdown(waitf, tot), write the terminal record with
ending = normal, then end_recipe. -/
def finalizeRun (fingas : List String) (waitf tot : ℚ) : RunRes :=
  (turnAll true fingas).andThen
    ⟨[.cd waitf tot, .logEnd "normal"] ++ end_recipe, none⟩

/-- The Recipe function (setup.py lines 296-353): computes tot and
cycle_time (ZeroDivisionError when N = 0, before any log write or relay
command), writes the recipe header and the start record, initializes,
runs the N cycles, then finalizes. -/
def Recipe (valves : List (List String)) (times : List ℚ) (N : Nat)
    (initgas : List String) (wait : ℚ) (fingas : List String) (waitf : ℚ) : RunRes :=
  match N with
  | 0 => ⟨[], some .zeroDiv⟩
  | Nat.succ _ =>
      let tot : ℚ := times.sum * N + wait + waitf
      (RunRes.mk [.logRecipe, .logStart] none).andThen
        ((initSeq initgas wait tot).andThen
          (let s := cyclesAux valves times fingas N N 0 (tot - wait)
           s.1.andThen (finalizeRun fingas waitf s.2)))

/-- The STOP control (ALDmof.py lines 79-87): if a log name is set, write
the terminal record with ending = forced; in every case run end_recipe. -/
def STOP (lognameSet : Bool) : List Ev :=
  (if lognameSet then [.logEnd "forced"] else []) ++ end_recipe

/-! ## C1: abort does not sweep the actuator universe -/

/-- C1 (code_bug): pressing STOP during a run writes the forced-ending
record but issues only usbrelay RELAY_9=0; relay 9 is not the relay of any
configured actuator, so no actuator of the known universe receives a
deactivate command, contradicting the claimed abort-safety sweep. -/
theorem stop_abort_missing_universe_deactivation :
    STOP true = [.logEnd "forced", .relay 9 false]
      ∧ ((relays.map (fun p => p.2)).all
          (fun n => !((STOP true).contains (.relay n false)))) = true
      ∧ (relays.map (fun p => p.2)).contains 9 = false := by
  decide

/-! ## Helper lemmas on command loops -/

/-- A turn_ON/turn_OFF dispatch on a known gas is the single relay command. -/
theorem cmd_known (g : String) (c : Bool) (h : (lookupRelay g).isSome) :
    (if c then turn_ON g else turn_OFF g) = ⟨[.relay (relayNum g) c], none⟩ := by
  obtain ⟨n, hn⟩ := Option.isSome_iff_exists.mp h
  cases c <;> simp [turn_ON, turn_OFF, relayNum, hn]

/-- A command loop over known gases emits exactly one relay command per gas. -/
theorem turnAll_known (b : Bool) (gs : List String)
    (h : ∀ g ∈ gs, (lookupRelay g).isSome) :
    turnAll b gs = ⟨gs.map (fun g => .relay (relayNum g) b), none⟩ := by
  induction gs with
  | nil => rfl
  | cons g gs ih =>
      have hg : (lookupRelay g).isSome := h g (List.mem_cons_self g gs)
      have hgs := ih (fun x hx => h x (List.mem_cons_of_mem g hx))
      simp only [turnAll, hgs, cmd_known g b hg, RunRes.andThen, List.map_cons]
      rfl

/-- The initialize per-gas loop over known gases emits one relay command per
gas, on or off according to membership in initgas. -/
theorem initEach_known (initgas gs : List String)
    (h : ∀ g ∈ gs, (lookupRelay g).isSome) :
    initEach initgas gs
      = ⟨gs.map (fun g => .relay (relayNum g) (initgas.contains g)), none⟩ := by
  induction gs with
  | nil => rfl
  | cons g gs ih =>
      have hg : (lookupRelay g).isSome := h g (List.mem_cons_self g gs)
      have hgs := ih (fun x hx => h x (List.mem_cons_of_mem g hx))
      simp only [initEach, hgs, cmd_known g (initgas.contains g) hg, RunRes.andThen,
        List.map_cons]
      rfl

/-- Every gas of the configured universe has a relay number. -/
theorem sortedGases_known : ∀ g ∈ sortedGases, (lookupRelay g).isSome := by
  decide

/-- Sequencing after a failed part is the failed part. -/
theorem andThen_of_err (evs : List Ev) (e : RunError) (b : RunRes) :
    (RunRes.mk evs (some e)).andThen b = ⟨evs, some e⟩ := rfl

/-- Sequencing after a successful part concatenates the event lists. -/
theorem andThen_events_of_ok (a b : RunRes) (h : a.err = none) :
    (a.andThen b).events = a.events ++ b.events := by
  simp [RunRes.andThen, h]

/-- Sequencing after a successful part keeps the second part's error. -/
theorem andThen_err_of_ok (a b : RunRes) (h : a.err = none) :
    (a.andThen b).err = b.err := by
  simp [RunRes.andThen, h]

/-- Relay lookups of the configured universe, evaluated. -/
theorem lookup_v1 : lookupRelay "V1" = some 1 := by decide

theorem lookup_v2 : lookupRelay "V2" = some 2 := by decide

theorem lookup_v3 : lookupRelay "V3" = some 3 := by decide

theorem lookup_ar : lookupRelay "Ar reactor" = some 4 := by decide

theorem lookup_bypass : lookupRelay "Turn OFF Ar bypass" = some 5 := by decide

/-- Closed form of the initialize relay sweep: one command per universe
actuator, on or off according to initgas membership. -/
theorem initRelays_char (initgas : List String) :
    initRelays initgas
      = ⟨sortedGases.map (fun g => .relay (relayNum g) (initgas.contains g)), none⟩ := by
  cases hg : initgas with
  | nil =>
      simp only [initRelays, hg, List.length_nil, if_pos rfl]
      rw [turnAll_known false sortedGases sortedGases_known]
      simp
  | cons g gs =>
      have hne : (g :: gs).length ≠ 0 := by simp
      simp only [initRelays, hg, if_neg hne]
      exact initEach_known (g :: gs) sortedGases sortedGases_known

/-- initSeq never raises (the initial relay sweep only touches known
gases, and the optional countdown is exception-free). -/
theorem initSeq_err_ok (initgas : List String) (wait tot : ℚ) :
    (initSeq initgas wait tot).err = none := by
  have h : (initRelays initgas).err = none := by rw [initRelays_char]
  by_cases hw : 0 < wait <;> simp [initSeq, andThen_err_of_ok _ _ h, hw]

/-- Unfolding of Recipe for a non-zero cycle count. -/
theorem recipe_decomp (valves : List (List String)) (times : List ℚ)
    (initgas : List String) (wait : ℚ) (fingas : List String) (waitf : ℚ)
    (m : Nat) :
    Recipe valves times (m + 1) initgas wait fingas waitf
      = (RunRes.mk [.logRecipe, .logStart] none).andThen
          ((initSeq initgas wait (times.sum * ((m + 1 : Nat) : ℚ) + wait + waitf)).andThen
            ((cyclesAux valves times fingas (m + 1) (m + 1) 0
                (times.sum * ((m + 1 : Nat) : ℚ) + wait + waitf - wait)).1.andThen
              (finalizeRun fingas waitf
                (cyclesAux valves times fingas (m + 1) (m + 1) 0
                  (times.sum * ((m + 1 : Nat) : ℚ) + wait + waitf - wait)).2))) := rfl

/-! ## C4: cycleCount 0 crashes before anything runs -/

/-- C4 (code_bug): for N = 0 the cycle_time computation
(tot - waitf - wait) / N raises ZeroDivisionError before any log write or
relay command: the run emits no event at all, although the UI allows
N = 0 and the spec makes it legal (initialization and finalization were
supposed to still execute). -/
theorem recipe_zero_cycles_zero_div :
    Recipe [["V1"]] [5] 0 [] 10 [] 10 = ⟨[], some .zeroDiv⟩ := by
  decide

/-! ## C2: step-boundary commands -/

/-- C2 counterexample: recipe steps [{V1,V2}, t], [{V1}, t], cycle 0 of 2.
At the boundary the code does issue only deactivate(V2) at the end of step
0, but then step 1 opens with an activate(V1) command although V1 is in
both sets: the events of step 1 begin with relay 1 on. The claim that an
actuator present in both sets receives no command at the boundary is
false. -/
theorem plan_redundant_activation_cex :
    (stepBody [["V1", "V2"], ["V1"]] [1, 1] [] 2 0 1 36).1.events
        = [.relay 1 true, .cd 1 36]
      ∧ (["V1", "V2"].contains "V1" && ["V1"].contains "V1") = true := by
  decide

/-- C2 (amended): at each step of cycle i < N the engine activates EVERY
valve of the step (including valves already active from the previous
step), runs the countdown, and then deactivates exactly the valves of the
step that are not in the code's next set (fingas in the final cycle, the
wrap-around successor step otherwise): toDeactivate = current − next, but
toActivate is the whole next set, not next − current. -/
theorem step_delta_commands (valves : List (List String)) (times : List ℚ)
    (fingas : List String) (N i step : Nat) (tot : ℚ) (hi : i < N)
    (hk : ∀ v ∈ valves.getD step [], (lookupRelay v).isSome) :
    (stepBody valves times fingas N i step tot).1.events
        = (valves.getD step []).map (fun v => .relay (relayNum v) true)
          ++ [.cd (times.getD step 0) tot]
          ++ ((valves.getD step []).filter (fun v =>
                !((if i = N - 1 then fingas
                   else valves.getD ((step + 1) % times.length) []).contains v))).map
              (fun v => .relay (relayNum v) false)
      ∧ (stepBody valves times fingas N i step tot).1.err = none := by
  have hcond : ∀ v, offCond valves times fingas N i step v
      = !((if i = N - 1 then fingas
           else valves.getD ((step + 1) % times.length) []).contains v) := by
    intro v
    by_cases h : i = N - 1
    · have h2 : ¬ i < N - 1 := by omega
      simp [offCond, h, h2]
    · have h2 : i < N - 1 := by omega
      simp [offCond, h, h2]
  have hfil : ∀ v ∈ (valves.getD step []).filter
      (offCond valves times fingas N i step), (lookupRelay v).isSome :=
    fun v hv => hk v (List.mem_of_mem_filter hv)
  have h1 := turnAll_known true (valves.getD step []) hk
  have h2 := turnAll_known false _ hfil
  have hfe : (valves.getD step []).filter (offCond valves times fingas N i step)
      = (valves.getD step []).filter (fun v =>
          !((if i = N - 1 then fingas
             else valves.getD ((step + 1) % times.length) []).contains v)) :=
    List.filter_congr (fun v _ => hcond v)
  rw [hfe] at h2
  have hstep : (stepBody valves times fingas N i step tot).1
      = ⟨(valves.getD step []).map (fun v => .relay (relayNum v) true)
          ++ [.cd (times.getD step 0) tot]
          ++ ((valves.getD step []).filter (fun v =>
                !((if i = N - 1 then fingas
                   else valves.getD ((step + 1) % times.length) []).contains v))).map
              (fun v => .relay (relayNum v) false), none⟩ := by
    simp only [stepBody, hfe, h1, h2]
    simp [RunRes.andThen]
  rw [hstep]
  exact ⟨rfl, rfl⟩

/-- C2 witness: the amended characterization evaluated on the scenario
recipe at the first boundary: all of step 0's valves are activated, then
only V2 (absent from step 1) is deactivated. -/
theorem step_delta_commands_witness :
    (stepBody [["V1", "V2"], ["V1"]] [1, 1] [] 2 0 0 37).1.events
      = [.relay 1 true, .relay 2 true, .cd 1 37, .relay 2 false] :=
  ((step_delta_commands [["V1", "V2"], ["V1"]] [1, 1] [] 2 0 0 37
      (by decide) (by decide)).1).trans (by decide)

/-! ## C3: which set is "next" at each boundary -/

/-- C3 counterexample: recipe steps [{V1}, t], [{V1}, t], N = 2, empty
finalization set. In the final cycle (i = 1 = N − 1) at its NON-final step
0, the code deactivates V1 (V1 is not in fingas) although the next step of
the same cycle needs V1: the per-step rule claimed for non-final steps of
the final cycle does not hold; the code uses the finalization set for
every step of the final cycle. -/
theorem final_cycle_next_set_cex :
    (stepBody [["V1"], ["V1"]] [1, 1] [] 2 1 0 37).1.events
        = [.relay 1 true, .cd 1 37, .relay 1 false]
      ∧ ([["V1"], ["V1"]].getD 1 []).contains "V1" = true := by
  decide

/-- C3 (amended): the deactivation test of the step loop compares against
fingas at EVERY step of the final cycle (i = N − 1), not only its last
step; at the final step of a non-final cycle it wraps around to step 0 of
the upcoming cycle; at a non-final step of a non-final cycle it uses the
next step of the same cycle. -/
theorem off_filter_next_set (valves : List (List String)) (times : List ℚ)
    (fingas : List String) (N i step : Nat) (v : String) (hi : i < N) :
    (offCond valves times fingas N i step v
        = !((if i = N - 1 then fingas
             else valves.getD ((step + 1) % times.length) []).contains v))
      ∧ (i = N - 1 → offCond valves times fingas N i step v = !(fingas.contains v))
      ∧ (i < N - 1 → step + 1 = times.length →
          offCond valves times fingas N i step v = !((valves.getD 0 []).contains v))
      ∧ (i < N - 1 → step + 1 < times.length →
          offCond valves times fingas N i step v
            = !((valves.getD (step + 1) []).contains v)) := by
  refine ⟨?_, ?_, ?_, ?_⟩
  · by_cases h : i = N - 1
    · have h2 : ¬ i < N - 1 := by omega
      simp [offCond, h, h2]
    · have h2 : i < N - 1 := by omega
      simp [offCond, h, h2]
  · intro h
    have h2 : ¬ i < N - 1 := by omega
    simp [offCond, h, h2]
  · intro h hs
    have h2 : i ≠ N - 1 := by omega
    have hm : (step + 1) % times.length = 0 := by
      rw [hs]; exact Nat.mod_self _
    simp [offCond, h, h2, hm]
  · intro h hs
    have h2 : i ≠ N - 1 := by omega
    have hm : (step + 1) % times.length = step + 1 := Nat.mod_eq_of_lt hs
    simp [offCond, h, h2, hm]

/-- C3 witness: the amended rule evaluated in the final cycle of the
scenario recipe: at step 0 of the final cycle the test compares against
the (empty) finalization set, so V1 is deactivated. -/
theorem off_filter_next_set_witness :
    offCond [["V1"], ["V1"]] [1, 1] [] 2 1 0 "V1" = !(([] : List String).contains "V1") :=
  (off_filter_next_set [["V1"], ["V1"]] [1, 1] [] 2 1 0 "V1" (by decide)).2.1 (by decide)

/-! ## C10: initialization fully determines the relay state -/

/-- C10: initialize issues exactly one relay command per actuator of the
configured universe, in sorted order: on for members of initgas, off for
all the others (hence all off when initgas is empty), and in a run these
commands come right after the two opening log records, before any step
countdown; so the step loop starts from a state determined by initgas
alone, whatever an earlier run left behind. -/
theorem init_relays_determine_state (initgas : List String)
    (valves : List (List String)) (times : List ℚ) (N : Nat) (wait : ℚ)
    (fingas : List String) (waitf : ℚ) (hN : N ≠ 0) :
    (initRelays initgas).err = none
      ∧ (initRelays initgas).events
          = sortedGases.map (fun g => .relay (relayNum g) (initgas.contains g))
      ∧ (Recipe valves times N initgas wait fingas waitf).events.take
            (2 + (initRelays initgas).events.length)
          = .logRecipe :: .logStart :: (initRelays initgas).events := by
  have hchar := initRelays_char initgas
  refine ⟨by rw [hchar], by rw [hchar], ?_⟩
  obtain ⟨m, rfl⟩ : ∃ m, N = m + 1 := ⟨N - 1, by omega⟩
  have herr : (initRelays initgas).err = none := by rw [hchar]
  have hinit : (initSeq initgas wait (times.sum * (m + 1 : Nat) + wait + waitf)).events
      = (initRelays initgas).events
        ++ (if 0 < wait
            then [Ev.cd wait (times.sum * (m + 1 : Nat) + wait + waitf)]
            else []) := by
    by_cases hw : 0 < wait <;>
      simp [initSeq, andThen_events_of_ok _ _ herr, hw]
  have hinerr : (initSeq initgas wait (times.sum * (m + 1 : Nat) + wait + waitf)).err
      = none := by
    by_cases hw : 0 < wait <;>
      simp [initSeq, andThen_err_of_ok _ _ herr, hw]
  simp only [Recipe, andThen_events_of_ok _ _ (show (RunRes.mk [Ev.logRecipe, Ev.logStart] none).err = none from rfl),
    andThen_events_of_ok _ _ hinerr, hinit]
  have hlen : 2 + (initRelays initgas).events.length
      = ((initRelays initgas).events.length + 1) + 1 := by omega
  rw [List.append_assoc, hlen]
  simp only [List.cons_append, List.take_succ_cons, List.nil_append]
  rw [List.take_left]

/-- C10 witness: concrete initialization with initgas = [V2]: every relay of
the universe gets exactly one command, V2 on and the rest off. -/
theorem init_relays_determine_state_witness :
    (initRelays ["V2"]).events
      = [.relay 4 false, .relay 5 false, .relay 1 false, .relay 2 true, .relay 3 false] :=
  ((init_relays_determine_state ["V2"] [["V1"]] [5] 1 0 [] 0 (by decide)).2.1).trans
    (by decide)

/-! ## C6: finalization -/

/-- True exactly on a deactivate command for a configured actuator. -/
def isUniverseOff (e : Ev) : Bool :=
  match e with
  | .relay n false => (relays.map (fun p => p.2)).contains n
  | _ => false

/-- C6 counterexample: run of the one-step recipe {steps [{V1}, 5], N = 1,
no init/final gas, finalWait 3}. The finalization segment (everything from
the finalWait countdown on) is the countdown, the ending=normal record and
relay 9 off, in that order: no configured actuator is deactivated between
the countdown and the terminal record — the claimed all-actuators sweep
before the ending=normal record does not exist (and relay 9 is switched
after the record, not before). -/
theorem finalization_no_universe_sweep_cex :
    (Recipe [["V1"]] [5] 1 [] 0 [] 3).events
        = [.logRecipe, .logStart, .relay 4 false, .relay 5 false, .relay 1 false,
           .relay 2 false, .relay 3 false, .relay 1 true, .cd 5 8, .relay 1 false,
           .cycle 0 1, .cd 3 3, .logEnd "normal", .relay 9 false]
      ∧ ((Recipe [["V1"]] [5] 1 [] 0 [] 3).events.drop 11).filter isUniverseOff = []
      ∧ (Recipe [["V1"]] [5] 1 [] 0 [] 3).events.drop 11
        = [.cd 3 3, .logEnd "normal", .relay 9 false] := by
  have h : (Recipe [["V1"]] [5] 1 [] 0 [] 3).events
      = [.logRecipe, .logStart, .relay 4 false, .relay 5 false, .relay 1 false,
         .relay 2 false, .relay 3 false, .relay 1 true, .cd 5 8, .relay 1 false,
         .cycle 0 1, .cd 3 3, .logEnd "normal", .relay 9 false] := by
    norm_num [show (1 : Nat) = 0 + 1 from rfl, recipe_decomp, initSeq, initRelays,
      sortedGases, turnAll, turn_ON, turn_OFF, lookup_v1, lookup_v2, lookup_v3,
      lookup_ar, lookup_bypass, stepsAux, cyclesAux, stepBody, offCond,
      finalizeRun, end_recipe, RunRes.andThen]
  refine ⟨h, ?_, ?_⟩ <;> rw [h] <;> decide

/-- C6 (amended): finalization activates every actuator of the finalization
set (not a minimal delta), runs countdown(finalWait), writes the terminal
record with ending = normal, and only then issues a single deactivate — of
relay 9, which is not the relay of any configured actuator. No sweep of
the configured universe takes place during finalization. -/
theorem finalization_commands (fingas : List String) (waitf tot : ℚ)
    (h : ∀ g ∈ fingas, (lookupRelay g).isSome) :
    finalizeRun fingas waitf tot
        = ⟨fingas.map (fun g => .relay (relayNum g) true)
            ++ [.cd waitf tot, .logEnd "normal", .relay 9 false], none⟩
      ∧ (finalizeRun fingas waitf tot).events.filter isUniverseOff = [] := by
  have heq : finalizeRun fingas waitf tot
      = ⟨fingas.map (fun g => .relay (relayNum g) true)
          ++ [.cd waitf tot, .logEnd "normal", .relay 9 false], none⟩ := by
    simp only [finalizeRun, end_recipe, turnAll_known true fingas h, RunRes.andThen]
    simp
  refine ⟨heq, ?_⟩
  rw [heq]
  rw [List.filter_eq_nil_iff]
  intro e he
  rcases List.mem_append.mp he with hm | hm
  · obtain ⟨g, _, rfl⟩ := List.mem_map.mp hm
    simp [isUniverseOff]
  · simp only [List.mem_cons, List.mem_singleton, List.not_mem_nil, or_false] at hm
    rcases hm with rfl | rfl | rfl <;> simp [isUniverseOff, relays]

/-- C6 witness: finalization with final set {V3}: activate V3, countdown,
terminal record, then relay 9 off. -/
theorem finalization_commands_witness :
    finalizeRun ["V3"] 3 3
      = ⟨[.relay 3 true, .cd 3 3, .logEnd "normal", .relay 9 false], none⟩ :=
  ((finalization_commands ["V3"] 3 3 (by decide)).1).trans (by decide)

/-! ## C9: there is no validation -/

/-- C9 counterexample: a recipe whose only step uses the unknown actuator
id X. The run is not rejected up front: the header and start records are
written and the five initialization relay commands are issued, and only
then does the first turn_ON raise KeyError. Rejection before any actuator
or log I/O does not happen, and the run does start. -/
theorem no_validation_before_io_cex :
    Recipe [["X"]] [5] 1 [] 0 [] 0
        = ⟨[.logRecipe, .logStart, .relay 4 false, .relay 5 false, .relay 1 false,
            .relay 2 false, .relay 3 false], some (.keyError "X")⟩
      ∧ (Recipe [["X"]] [5] 1 [] 0 [] 0).events.contains .logRecipe = true := by
  have h : Recipe [["X"]] [5] 1 [] 0 [] 0
      = ⟨[.logRecipe, .logStart, .relay 4 false, .relay 5 false, .relay 1 false,
          .relay 2 false, .relay 3 false], some (.keyError "X")⟩ := by
    norm_num [show (1 : Nat) = 0 + 1 from rfl, recipe_decomp, initSeq, initRelays,
      sortedGases, turnAll, turn_ON, turn_OFF, lookup_v1, lookup_v2, lookup_v3,
      lookup_ar, lookup_bypass, stepsAux, cyclesAux, stepBody, offCond,
      finalizeRun, end_recipe, RunRes.andThen,
      show lookupRelay "X" = none from by decide]
  refine ⟨h, ?_⟩
  rw [show (Recipe [["X"]] [5] 1 [] 0 [] 0).events
      = [.logRecipe, .logStart, .relay 4 false, .relay 5 false, .relay 1 false,
         .relay 2 false, .relay 3 false] from by rw [h]]
  decide

/-- C9 (amended): the engine has no validate step. A RecipeDefinition with
an unknown actuator id is not rejected before I/O: the run writes the log
header and start records (and issues the initialization commands), then
dies with KeyError at the first actuator command naming the unknown id. -/
theorem unknown_id_fails_after_log (g : String) (hg : lookupRelay g = none) :
    (Recipe [[g]] [5] 1 [] 0 [] 0).err = some (.keyError g)
      ∧ (Recipe [[g]] [5] 1 [] 0 [] 0).events.take 2 = [.logRecipe, .logStart] := by
  have hstep : turnAll true [g] = ⟨[], some (.keyError g)⟩ := by
    simp [turnAll, turn_ON, hg, RunRes.andThen]
  have hcyc : ∀ t : ℚ, (cyclesAux [[g]] [5] [] 1 1 0 t).1 = ⟨[], some (.keyError g)⟩ := by
    intro t
    simp [cyclesAux, stepsAux, stepBody, hstep, RunRes.andThen, andThen_of_err]
  rw [show (1 : Nat) = 0 + 1 from rfl, recipe_decomp]
  constructor
  · rw [andThen_err_of_ok _ _ rfl, andThen_err_of_ok _ _ (initSeq_err_ok _ _ _),
      hcyc, andThen_of_err]
  · rw [andThen_events_of_ok _ _ rfl]
    exact List.take_left' rfl

/-- C9 witness: the unknown id X fails with KeyError X after the two log
records. -/
theorem unknown_id_fails_after_log_witness :
    lookupRelay "X" = none
      ∧ ((Recipe [["X"]] [5] 1 [] 0 [] 0).err = some (.keyError "X")
          ∧ (Recipe [["X"]] [5] 1 [] 0 [] 0).events.take 2 = [.logRecipe, .logStart]) :=
  ⟨by decide, unknown_id_fails_after_log "X" (by decide)⟩

/-! ## C7: countdown (setup.py lines 201-227) -/

/-- The while-loop of countdown: while t > 0, if t >= 1 display the
(remaining step, remaining total) pair, sleep one second and decrement t
and tot; otherwise just sleep the fractional remainder t (displaying
nothing) and decrement t, which ends the loop. Fuel-indexed structural
recursion; any fuel above the ceiling of t computes the loop exactly. -/
def countdownAux : Nat → ℚ → ℚ → List (ℚ × ℚ)
  | 0, _, _ => []
  | fuel + 1, t, tot =>
      if 0 < t then
        if 1 ≤ t then (t, tot) :: countdownAux fuel (t - 1) (tot - 1)
        else countdownAux fuel (t - 1) tot
      else []

/-- countdown(t, tot): tot is truncated by int() on entry; the result is
the finite sequence of displayed observations. -/
def countdown (t tot : ℚ) : List (ℚ × ℚ) :=
  countdownAux (⌈t⌉.toNat + 1) t ((⌊tot⌋ : ℤ) : ℚ)

/-- The loop body never runs on a non-positive remaining time. -/
theorem countdownAux_nonpos (fuel : Nat) (t tot : ℚ) (h : ¬ 0 < t) :
    countdownAux fuel t tot = [] := by
  cases fuel with
  | zero => rfl
  | succ fuel => simp [countdownAux, h]

/-- With enough fuel, the loop makes exactly one displayed observation per
whole second of t, every observation having at least one second left. -/
theorem countdownAux_spec (fuel : Nat) :
    ∀ t tot : ℚ, ⌈t⌉.toNat < fuel →
      (countdownAux fuel t tot).length = ⌊t⌋.toNat
        ∧ ∀ p ∈ countdownAux fuel t tot, 1 ≤ p.1 := by
  induction fuel with
  | zero => intro t tot h; omega
  | succ fuel ih =>
      intro t tot h
      by_cases h0 : 0 < t
      · by_cases h1 : 1 ≤ t
        · have hc1 : 0 < ⌈t⌉ := Int.ceil_pos.mpr h0
          have hcs : ⌈t - 1⌉ = ⌈t⌉ - 1 := Int.ceil_sub_one t
          have hfl : (1 : ℤ) ≤ ⌊t⌋ := Int.le_floor.mpr (by exact_mod_cast h1)
          have hfs : ⌊t - 1⌋ = ⌊t⌋ - 1 := Int.floor_sub_one t
          have hrec := ih (t - 1) (tot - 1) (by omega)
          constructor
          · simp only [countdownAux, if_pos h0, if_pos h1, List.length_cons, hrec.1]
            omega
          · intro p hp
            simp only [countdownAux, if_pos h0, if_pos h1, List.mem_cons] at hp
            rcases hp with rfl | hp
            · exact h1
            · exact hrec.2 p hp
        · have hz : ⌊t⌋ = 0 := by
            rw [Int.floor_eq_zero_iff]
            constructor
            · exact le_of_lt h0
            · linarith [not_le.mp h1]
          have hdone : countdownAux fuel (t - 1) tot = [] :=
            countdownAux_nonpos fuel (t - 1) tot (by linarith [not_le.mp h1])
          simp [countdownAux, if_pos h0, if_neg h1, hdone, hz]
      · have hz : ⌊t⌋ ≤ 0 := by
          have := Int.floor_le_floor (le_of_not_lt h0)
          simpa using this
        simp [countdownAux, if_neg h0]
        omega

/-- C7 counterexample: countdown(2.5, 10) makes exactly the two whole-second
observations (2.5, 10) and (1.5, 9); the fractional remainder 0.5 is slept
through without any observation, so the claimed final fractional
observation (which would make floor(t) + 1 = 3 observations) never
happens. -/
theorem countdown_no_fractional_obs_cex :
    countdown (5 / 2) 10 = [(5 / 2, 10), (3 / 2, 9)]
      ∧ (countdown (5 / 2) 10).length ≠ ⌊(5 / 2 : ℚ)⌋.toNat + 1 := by
  constructor
  · norm_num [countdown, countdownAux]
    norm_num [show ⌈(5 / 2 : ℚ)⌉ = 3 by norm_num [Int.ceil_eq_iff],
      show ((⌊(10 : ℚ)⌋ : ℤ) : ℚ) = 10 by norm_num, countdownAux]
  · norm_num [countdown, countdownAux]
    norm_num [show ⌈(5 / 2 : ℚ)⌉ = 3 by norm_num [Int.ceil_eq_iff],
      show ((⌊(10 : ℚ)⌋ : ℤ) : ℚ) = 10 by norm_num, countdownAux,
      show ⌊(5 / 2 : ℚ)⌋ = 2 by norm_num [Int.floor_eq_iff]]
    decide

/-- C7 (amended): countdown terminates for every duration and produces
exactly floor(t) observations, one per whole second while at least one
second remains; the fractional remainder (< 1 s) is slept through without
producing an observation (every observation has first component >= 1). -/
theorem countdown_length (t tot : ℚ) :
    (countdown t tot).length = ⌊t⌋.toNat
      ∧ ∀ p ∈ countdown t tot, 1 ≤ p.1 :=
  countdownAux_spec (⌈t⌉.toNat + 1) t ((⌊tot⌋ : ℤ) : ℚ) (by omega)

/-! ## C5: header-line round trip

The header data line (setup.py lines 316-317) and its re-parse
(ALDmof.py lines 26-38) are modelled on lists of characters. Python
str.join and str.split on one-character separators become joinC and
splitC; str() and int() on the integer fields become natToChars and
pyInt. Durations are Python floats whose serialized form is str(t);
since Python guarantees float(str(x)) == x, the textual field is what
the round trip transports, and each duration is modelled by its
canonical decimal text. pandas reads the data line with sep = "|" and
turns an empty field into NaN, then fillna('') — equivalent to keeping
the empty character list. -/

/-- Python sep.join on single-character separators. -/
def joinC (sep : Char) : List (List Char) → List Char
  | [] => []
  | [x] => x
  | x :: y :: xs => x ++ sep :: joinC sep (y :: xs)

/-- Python str.split on a single-character separator: always at least one
group, empty groups kept. -/
def splitC (sep : Char) : List Char → List (List Char)
  | [] => [[]]
  | c :: rest =>
      match splitC sep rest with
      | [] => [[]]
      | g :: gs => if c = sep then [] :: g :: gs else (c :: g) :: gs

theorem splitC_ne_nil (sep : Char) (l : List Char) : splitC sep l ≠ [] := by
  induction l with
  | nil => simp [splitC]
  | cons c rest ih =>
      simp only [splitC]
      rcases hs : splitC sep rest with _ | ⟨g, gs⟩
      · simp
      · by_cases hc : c = sep <;> simp [hc]

theorem splitC_no_sep (sep : Char) (x : List Char) (h : sep ∉ x) :
    splitC sep x = [x] := by
  induction x with
  | nil => rfl
  | cons c rest ih =>
      have hc : ¬ c = sep := fun hc => h (hc ▸ List.mem_cons_self c rest)
      have hr := ih (fun hm => h (List.mem_cons_of_mem c hm))
      simp [splitC, hr, hc]

theorem splitC_append_sep (sep : Char) (x t : List Char) (h : sep ∉ x) :
    splitC sep (x ++ sep :: t) = x :: splitC sep t := by
  induction x with
  | nil =>
      simp only [List.nil_append, splitC]
      rcases hs : splitC sep t with _ | ⟨g, gs⟩
      · exact absurd hs (splitC_ne_nil sep t)
      · simp
  | cons c x' ih =>
      have hc : ¬ c = sep := fun hc => h (hc ▸ List.mem_cons_self c x')
      have hr := ih (fun hm => h (List.mem_cons_of_mem c hm))
      simp [splitC, hr, hc]

/-- split undoes join on non-empty group lists free of the separator. -/
theorem splitC_joinC (sep : Char) (ls : List (List Char)) (hne : ls ≠ [])
    (hsep : ∀ x ∈ ls, sep ∉ x) : splitC sep (joinC sep ls) = ls := by
  induction ls with
  | nil => exact absurd rfl hne
  | cons x xs ih =>
      cases xs with
      | nil =>
          simp only [joinC]
          exact splitC_no_sep sep x (hsep x (List.mem_cons_self x []))
      | cons y ys =>
          have h1 : sep ∉ x := hsep x (List.mem_cons_self x (y :: ys))
          have h2 := ih (by simp) (fun z hz => hsep z (List.mem_cons_of_mem x hz))
          simp only [joinC]
          rw [splitC_append_sep sep x (joinC sep (y :: ys)) h1, h2]

/-- Characters of a join come from the separator or from a group. -/
theorem mem_joinC (sep : Char) (ls : List (List Char)) (c : Char)
    (h : c ∈ joinC sep ls) : c = sep ∨ ∃ x ∈ ls, c ∈ x := by
  induction ls with
  | nil => simp [joinC] at h
  | cons x xs ih =>
      cases xs with
      | nil =>
          simp only [joinC] at h
          exact Or.inr ⟨x, List.mem_cons_self x [], h⟩
      | cons y ys =>
          simp only [joinC, List.mem_append, List.mem_cons] at h
          rcases h with hx | rfl | hj
          · exact Or.inr ⟨x, List.mem_cons_self x (y :: ys), hx⟩
          · exact Or.inl rfl
          · rcases ih hj with hc | ⟨z, hz, hcz⟩
            · exact Or.inl hc
            · exact Or.inr ⟨z, List.mem_cons_of_mem x hz, hcz⟩

theorem joinC_ne_nil (sep : Char) (x : List Char) (xs : List (List Char))
    (hx : x ≠ []) : joinC sep (x :: xs) ≠ [] := by
  cases xs with
  | nil => simpa [joinC] using hx
  | cons y ys => simp [joinC]

/-! ### Decimal numerals: Python str() and int() on naturals -/

/-- Numeric value of a decimal digit character. -/
def charDigit (c : Char) : Nat := c.toNat - 48

/-- Digit-emitting loop of str(n) for n > 0 (most significant first);
fuel-indexed, any fuel at least n computes it. -/
def natToCharsAux : Nat → Nat → List Char
  | 0, _ => []
  | _ + 1, 0 => []
  | fuel + 1, n + 1 =>
      natToCharsAux fuel ((n + 1) / 10) ++ [Nat.digitChar ((n + 1) % 10)]

/-- Python str(n) for a natural n: canonical decimal numeral. -/
def natToChars (n : Nat) : List Char :=
  if n = 0 then ['0'] else natToCharsAux n n

/-- Python int(s) restricted to plain decimal numerals: error (none) on an
empty or non-digit string, otherwise the base-10 value. -/
def pyInt (l : List Char) : Option Nat :=
  if l.isEmpty then none
  else if l.all Char.isDigit then
    some (l.foldl (fun a c => 10 * a + charDigit c) 0)
  else none

theorem digitChar_isDigit : ∀ d, d < 10 → (Nat.digitChar d).isDigit = true := by
  decide

theorem charDigit_digitChar : ∀ d, d < 10 → charDigit (Nat.digitChar d) = d := by
  decide

theorem isDigit_ne_delims (c : Char) (h : c.isDigit = true) :
    c ≠ '|' ∧ c ≠ ',' ∧ c ≠ ';' :=
  ⟨fun hc => absurd h (by subst hc; decide),
   fun hc => absurd h (by subst hc; decide),
   fun hc => absurd h (by subst hc; decide)⟩

theorem natToCharsAux_zero (fuel : Nat) : natToCharsAux fuel 0 = [] := by
  cases fuel <;> rfl

/-- The digit loop emits a non-empty all-digit string whose base-10 value
is n, for any sufficient fuel. -/
theorem natToCharsAux_spec (fuel : Nat) :
    ∀ n, 0 < n → n ≤ fuel →
      natToCharsAux fuel n ≠ []
        ∧ (∀ c ∈ natToCharsAux fuel n, c.isDigit = true)
        ∧ (natToCharsAux fuel n).foldl (fun a c => 10 * a + charDigit c) 0 = n := by
  induction fuel with
  | zero => intro n h0 h1; omega
  | succ fuel ih =>
      intro n h0 h1
      obtain ⟨m, rfl⟩ : ∃ m, n = m + 1 := ⟨n - 1, by omega⟩
      have hr : (m + 1) % 10 < 10 := Nat.mod_lt _ (by norm_num)
      simp only [natToCharsAux]
      by_cases hq : (m + 1) / 10 = 0
      · have hlt : m + 1 < 10 := (Nat.div_eq_zero_iff (by norm_num)).mp hq
        rw [hq, natToCharsAux_zero]
        refine ⟨by simp, ?_, ?_⟩
        · intro c hc
          simp only [List.nil_append, List.mem_singleton] at hc
          subst hc
          exact digitChar_isDigit _ hr
        · rw [Nat.mod_eq_of_lt hlt]
          simp [charDigit_digitChar _ hlt]
      · have hqpos : 0 < (m + 1) / 10 := Nat.pos_of_ne_zero hq
        have hqle : (m + 1) / 10 ≤ fuel := by
          have := Nat.div_lt_self (show 0 < m + 1 by omega) (show 1 < 10 by norm_num)
          omega
        obtain ⟨hne, hdig, hval⟩ := ih ((m + 1) / 10) hqpos hqle
        refine ⟨by simp, ?_, ?_⟩
        · intro c hc
          rcases List.mem_append.mp hc with hc | hc
          · exact hdig c hc
          · simp only [List.mem_singleton] at hc
            subst hc
            exact digitChar_isDigit _ hr
        · rw [List.foldl_append, hval]
          simp only [List.foldl_cons, List.foldl_nil]
          rw [charDigit_digitChar _ hr]
          omega

/-- str(n) is a non-empty all-digit string. -/
theorem natToChars_digits (n : Nat) :
    natToChars n ≠ [] ∧ ∀ c ∈ natToChars n, c.isDigit = true := by
  by_cases h : n = 0
  · subst h
    refine ⟨by simp [natToChars], ?_⟩
    intro c hc
    rw [show natToChars 0 = ['0'] from rfl] at hc
    simp only [List.mem_singleton] at hc
    subst hc
    decide
  · have := natToCharsAux_spec n n (Nat.pos_of_ne_zero h) (le_refl n)
    simp only [natToChars, if_neg h]
    exact ⟨this.1, this.2.1⟩

/-- int() undoes str() on naturals. -/
theorem pyInt_natToChars (n : Nat) : pyInt (natToChars n) = some n := by
  by_cases h : n = 0
  · subst h; decide
  · obtain ⟨hne, hdig, hval⟩ :=
      natToCharsAux_spec n n (Nat.pos_of_ne_zero h) (le_refl n)
    simp only [natToChars, if_neg h, pyInt]
    rw [if_neg (by simpa [List.isEmpty_iff] using hne),
      if_pos (List.all_eq_true.mpr hdig), hval]

/-! ### The recipe record and the header line -/

/-- The RecipeDefinition carried by the header line: name, initialization
gases and wait, finalization gases and wait, cycle count N, step count,
per-step valve lists and per-step duration texts. -/
structure RecipeDef where
  recipe : List Char
  initgas : List (List Char)
  wait : Nat
  fingas : List (List Char)
  waitf : Nat
  N : Nat
  Nsteps : Nat
  valves : List (List (List Char))
  times : List (List Char)
deriving DecidableEq

/-- The data line of the header block (setup.py lines 316-317):
recipe|initgas|wait|fingas|waitf|N|Nsteps|valves|times with initgas and
fingas comma-joined, valves comma-joined of semicolon-joined ids, times
comma-joined, Nsteps written as len(times). -/
def serializeRecipe (r : RecipeDef) : List Char :=
  joinC '|' [r.recipe,
    joinC ',' r.initgas,
    natToChars r.wait,
    joinC ',' r.fingas,
    natToChars r.waitf,
    natToChars r.N,
    natToChars r.times.length,
    joinC ',' (r.valves.map (joinC ';')),
    joinC ',' r.times]

/-- The re-import of the data line (ALDmof.py lines 28-38): split on the
pipes, int() the numeric fields, split initgas and fingas on commas when
non-empty (else empty list), split valves on commas then each step on
semicolons, split times on commas. -/
def parseRecipe (s : List Char) : Option RecipeDef :=
  match splitC '|' s with
  | [f1, f2, f3, f4, f5, f6, f7, f8, f9] =>
      match pyInt f3, pyInt f5, pyInt f6, pyInt f7 with
      | some wait, some waitf, some n, some nsteps =>
          some { recipe := f1
                 initgas := if f2.isEmpty then [] else splitC ',' f2
                 wait := wait
                 fingas := if f4.isEmpty then [] else splitC ',' f4
                 waitf := waitf
                 N := n
                 Nsteps := nsteps
                 valves := (splitC ',' f8).map (splitC ';')
                 times := splitC ',' f9 }
      | _, _, _, _ => none
  | _ => none

/-- An actuator id usable in the header line: non-empty and free of the
three delimiters. -/
def goodId (x : List Char) : Prop :=
  x ≠ [] ∧ ∀ c ∈ x, c ≠ '|' ∧ c ≠ ',' ∧ c ≠ ';'

instance (x : List Char) : Decidable (goodId x) := by
  unfold goodId; infer_instance

/-- Well-formedness under which the header line round-trips: pipe-free
name, good ids everywhere, non-empty step list, every step's valve set
non-empty, non-empty times with delimiter-free non-empty texts, and the
stored step count equal to len(times). -/
def goodRecipe (r : RecipeDef) : Prop :=
  (∀ c ∈ r.recipe, c ≠ '|')
    ∧ (∀ x ∈ r.initgas, goodId x)
    ∧ (∀ x ∈ r.fingas, goodId x)
    ∧ r.valves ≠ []
    ∧ (∀ s ∈ r.valves, s ≠ [] ∧ ∀ x ∈ s, goodId x)
    ∧ r.times ≠ []
    ∧ (∀ x ∈ r.times, x ≠ [] ∧ ∀ c ∈ x, c ≠ '|' ∧ c ≠ ',')
    ∧ r.Nsteps = r.times.length

instance (r : RecipeDef) : Decidable (goodRecipe r) := by
  unfold goodRecipe; infer_instance

/-- Comma-join then isEmpty-guarded comma-split is the identity on lists
of good ids (the parse guard maps an empty field to the empty list). -/
theorem join_split_ids (ls : List (List Char)) (hls : ∀ x ∈ ls, goodId x) :
    (if (joinC ',' ls).isEmpty then [] else splitC ',' (joinC ',' ls)) = ls := by
  cases ls with
  | nil => simp [joinC]
  | cons x xs =>
      have hxne : x ≠ [] := (hls x (List.mem_cons_self x xs)).1
      have hjne : joinC ',' (x :: xs) ≠ [] := joinC_ne_nil ',' x xs hxne
      rw [if_neg (by simpa [List.isEmpty_iff] using hjne)]
      refine splitC_joinC ',' (x :: xs) (by simp) ?_
      intro z hz hcm
      exact ((hls z hz).2 ',' hcm).2.1 rfl

/-- C5 counterexample: the one-step recipe whose single step has an EMPTY
valve set. Serializing writes an empty valves field; re-parsing splits it
into one step containing the single empty-string id, not an empty step:
the round trip changes the recipe, so the claim fails for empty step
actuator sets. -/
theorem roundtrip_empty_step_cex :
    parseRecipe (serializeRecipe ⟨['A'], [], 0, [], 0, 1, 1, [[]], [['5']]⟩)
        = some ⟨['A'], [], 0, [], 0, 1, 1, [[[]]], [['5']]⟩
      ∧ (⟨['A'], [], 0, [], 0, 1, 1, [[[]]], [['5']]⟩ : RecipeDef)
          ≠ ⟨['A'], [], 0, [], 0, 1, 1, [[]], [['5']]⟩ := by
  constructor <;> decide

/-- C5 (amended): for every well-formed RecipeDefinition — delimiter-free
name, good actuator ids, non-empty step list with every step's actuator
set NON-empty, non-empty delimiter-free duration texts, stored step count
equal to len(times) — serializing the header data line and re-parsing it
yields the recipe back, field for field. A step with an empty actuator
set breaks the trip (it re-parses as one empty-string id). -/
theorem recipe_roundtrip (r : RecipeDef) (h : goodRecipe r) :
    parseRecipe (serializeRecipe r) = some r := by
  obtain ⟨hname, hinit, hfin, hvne, hv, htne, ht, hns⟩ := h
  have hp1 : '|' ∉ r.recipe := fun hm => (hname '|' hm) rfl
  have hp2 : '|' ∉ joinC ',' r.initgas := by
    intro hm
    rcases mem_joinC ',' r.initgas '|' hm with hc | ⟨x, hx, hcx⟩
    · exact absurd hc (by decide)
    · exact ((hinit x hx).2 '|' hcx).1 rfl
  have hp4 : '|' ∉ joinC ',' r.fingas := by
    intro hm
    rcases mem_joinC ',' r.fingas '|' hm with hc | ⟨x, hx, hcx⟩
    · exact absurd hc (by decide)
    · exact ((hfin x hx).2 '|' hcx).1 rfl
  have hpnum : ∀ n : Nat, '|' ∉ natToChars n := fun n hm =>
    (isDigit_ne_delims '|' ((natToChars_digits n).2 '|' hm)).1 rfl
  have hp8 : '|' ∉ joinC ',' (r.valves.map (joinC ';')) := by
    intro hm
    rcases mem_joinC ',' _ '|' hm with hc | ⟨x, hx, hcx⟩
    · exact absurd hc (by decide)
    · obtain ⟨s, hs, rfl⟩ := List.mem_map.mp hx
      rcases mem_joinC ';' s '|' hcx with hc | ⟨y, hy, hcy⟩
      · exact absurd hc (by decide)
      · exact (((hv s hs).2 y hy).2 '|' hcy).1 rfl
  have hp9 : '|' ∉ joinC ',' r.times := by
    intro hm
    rcases mem_joinC ',' r.times '|' hm with hc | ⟨x, hx, hcx⟩
    · exact absurd hc (by decide)
    · exact ((ht x hx).2 '|' hcx).1 rfl
  have hsplit : splitC '|' (serializeRecipe r)
      = [r.recipe, joinC ',' r.initgas, natToChars r.wait, joinC ',' r.fingas,
         natToChars r.waitf, natToChars r.N, natToChars r.times.length,
         joinC ',' (r.valves.map (joinC ';')), joinC ',' r.times] := by
    refine splitC_joinC '|' _ (by simp) ?_
    intro x hx
    simp only [List.mem_cons, List.not_mem_nil, or_false] at hx
    rcases hx with rfl | rfl | rfl | rfl | rfl | rfl | rfl | rfl | rfl
    exacts [hp1, hp2, hpnum _, hp4, hpnum _, hpnum _, hpnum _, hp8, hp9]
  have hinitgas := join_split_ids r.initgas hinit
  have hfingas := join_split_ids r.fingas hfin
  have hvalves : ((splitC ',' (joinC ',' (r.valves.map (joinC ';')))).map (splitC ';'))
      = r.valves := by
    rw [splitC_joinC ',' (r.valves.map (joinC ';')) (by simpa using hvne)
      (by
        intro x hx hcm
        obtain ⟨s, hs, rfl⟩ := List.mem_map.mp hx
        rcases mem_joinC ';' s ',' hcm with hc | ⟨y, hy, hcy⟩
        · exact absurd hc (by decide)
        · exact ((((hv s hs).2 y hy).2) ',' hcy).2.1 rfl)]
    rw [List.map_map]
    have hid : ∀ s ∈ r.valves, (splitC ';' ∘ joinC ';') s = s := by
      intro s hs
      exact splitC_joinC ';' s (hv s hs).1
        (fun y hy hcy => ((((hv s hs).2 y hy).2) ';' hcy).2.2 rfl)
    rw [List.map_congr_left hid]
    simp
  have htimes : splitC ',' (joinC ',' r.times) = r.times :=
    splitC_joinC ',' r.times htne (fun x hx hcm => ((ht x hx).2 ',' hcm).2 rfl)
  simp only [parseRecipe, hsplit, pyInt_natToChars]
  simp only [List.isEmpty_iff] at hinitgas hfingas
  simp only [List.isEmpty_eq_true]
  rw [hinitgas, hfingas, hvalves, htimes, ← hns]

/-- C5 witness: the amended round trip evaluated on a concrete well-formed
recipe with one step {V1}. -/
theorem recipe_roundtrip_witness :
    goodRecipe ⟨['A'], [['V', '1']], 3, [], 4, 2, 1, [[['V', '1']]], [['5']]⟩
      ∧ parseRecipe (serializeRecipe
          ⟨['A'], [['V', '1']], 3, [], 4, 2, 1, [[['V', '1']]], [['5']]⟩)
        = some ⟨['A'], [['V', '1']], 3, [], 4, 2, 1, [[['V', '1']]], [['5']]⟩ :=
  ⟨by decide, recipe_roundtrip _ (by decide)⟩

/-! ## C8: the cycles_done progress field

The log file is modelled as its list of lines (without newlines).
write_to_log formats each record line as '{:15}  {}'.format(key, value);
replacement (setup.py lines 112-124) reads the file line by line and
applies Python str.replace to each line, re-implemented here as
strReplace (leftmost, non-overlapping, fuel-indexed structural
recursion with fuel = length of the line, which always suffices). -/

/-- One log line '{:15}  {}'.format(key, value): key left-justified to
width 15, two spaces, value. -/
def fmtKV (k v : List Char) : List Char :=
  (k ++ List.replicate (15 - k.length) ' ') ++ ' ' :: ' ' :: v

/-- The value text f"{i}/{N}". -/
def cyclesVal (i N : Nat) : List Char := natToChars i ++ '/' :: natToChars N

/-- The full cycles_done log line for value i/N, which is also the literal
pattern f"cycles_done      {i}/{N}" used by update_cycle (the format pads
the 11-character key with 4 + 2 spaces, matching the 6 spaces of the
pattern). -/
def cyclesLine (i N : Nat) : List Char := fmtKV "cycles_done".data (cyclesVal i N)

/-- Python str.replace on character lists: when the pattern is a prefix,
emit the replacement and continue past it, else keep one character and
continue; empty patterns never occur here (Python would interleave). -/
def strReplaceAux : Nat → List Char → List Char → List Char → List Char
  | 0, l, _, _ => l
  | _ + 1, l, [], _ => l
  | _ + 1, [], _ :: _, _ => []
  | fuel + 1, c :: rest, p :: ps, rep =>
      if (p :: ps).isPrefixOf (c :: rest) then
        rep ++ strReplaceAux fuel ((c :: rest).drop (p :: ps).length) (p :: ps) rep
      else c :: strReplaceAux fuel rest (p :: ps) rep

def strReplace (l pat rep : List Char) : List Char :=
  strReplaceAux l.length l pat rep

/-- update_cycle (setup.py lines 127-136): on the first cycle append the
cycles_done line (via write_to_log), on later cycles rewrite the existing
line in place by replacing the i/N line with the (i+1)/N line. -/
def update_cycle (log : List (List Char)) (i N : Nat) : List (List Char) :=
  if i = 0 then log ++ [fmtKV "cycles_done".data (cyclesVal (i + 1) N)]
  else log.map (fun l => strReplace l (cyclesLine i N) (cyclesLine (i + 1) N))

/-- The sequence of update_cycle calls of a run: the state of the log after
the first k calls (call k is update_cycle(log, k, N), made after cycle k). -/
def runUpdates (base : List (List Char)) (N : Nat) : Nat → List (List Char)
  | 0 => base
  | k + 1 => update_cycle (runUpdates base N k) k N

theorem strReplaceAux_nil (fuel : Nat) (p : Char) (ps rep : List Char) :
    strReplaceAux fuel [] (p :: ps) rep = [] := by
  cases fuel <;> rfl

/-- Lines not containing the pattern are left unchanged by str.replace. -/
theorem strReplaceAux_of_not_infix (pat rep : List Char) (fuel : Nat) :
    ∀ l, ¬ pat <:+: l → strReplaceAux fuel l pat rep = l := by
  induction fuel with
  | zero => intro l _; rfl
  | succ fuel ih =>
      intro l h
      cases pat with
      | nil => exact absurd List.nil_infix h
      | cons p ps =>
          cases l with
          | nil => rfl
          | cons c rest =>
              have hpre : ¬ (p :: ps).isPrefixOf (c :: rest) = true := by
                rw [List.isPrefixOf_iff_prefix]
                exact fun hp => h hp.isInfix
              have hrest : ¬ (p :: ps) <:+: rest := fun hr => h (hr.trans (List.suffix_cons c rest).isInfix)
              simp only [strReplaceAux, Bool.not_eq_true] at hpre ⊢
              rw [if_neg (by simp [hpre]), ih rest hrest]

theorem strReplace_of_not_infix (l pat rep : List Char) (h : ¬ pat <:+: l) :
    strReplace l pat rep = l :=
  strReplaceAux_of_not_infix pat rep l.length l h

/-- Replacing a whole non-empty line by a replacement yields exactly the
replacement. -/
theorem strReplace_self (pat rep : List Char) (h : pat ≠ []) :
    strReplace pat pat rep = rep := by
  cases pat with
  | nil => exact absurd rfl h
  | cons p ps =>
      show strReplaceAux (ps.length + 1) (p :: ps) (p :: ps) rep = rep
      rw [strReplaceAux,
        if_pos (List.isPrefixOf_iff_prefix.mpr (List.prefix_refl (p :: ps)))]
      rw [show (p :: ps).drop (p :: ps).length = [] from List.drop_length (p :: ps)]
      rw [strReplaceAux_nil, List.append_nil]

theorem cyclesLine_ne_nil (i N : Nat) : cyclesLine i N ≠ [] := by
  simp [cyclesLine, fmtKV]

/-- Every cycles_done line starts with the key. -/
theorem key_prefix_cyclesLine (i N : Nat) :
    "cycles_done".data <+: cyclesLine i N := by
  rw [cyclesLine, fmtKV, List.append_assoc]
  exact ⟨_, rfl⟩

/-- C8: over a run of N >= 1 cycles on a log whose existing lines do not
contain the cycles_done key, the k-th update (made after cycle k) leaves
the log as the base plus the single line cycles_done (k+1)/N: the recorded
values 1/N, 2/N, ..., read in order of update, are non-decreasing and end
at exactly N/N; the first update appends the line (the log grows by one
line exactly once), and every later update rewrites it in place (the line
count stays unchanged). -/
theorem update_cycle_progress (N : Nat) (base : List (List Char))
    (hbase : ∀ l ∈ base, ¬ "cycles_done".data <:+: l) (hN : 1 ≤ N) :
    (∀ k, k < N → runUpdates base N (k + 1) = base ++ [cyclesLine (k + 1) N])
      ∧ runUpdates base N N = base ++ [cyclesLine N N]
      ∧ (runUpdates base N 1).length = base.length + 1
      ∧ (∀ k, 1 ≤ k → k < N →
          (runUpdates base N (k + 1)).length = (runUpdates base N k).length) := by
  have key : ∀ k, k < N → runUpdates base N (k + 1) = base ++ [cyclesLine (k + 1) N] := by
    intro k
    induction k with
    | zero =>
        intro _
        show update_cycle base 0 N = base ++ [cyclesLine 1 N]
        rw [update_cycle, if_pos rfl]
        rfl
    | succ k ih =>
        intro hk
        have hk' : k < N := by omega
        show update_cycle (runUpdates base N (k + 1)) (k + 1) N = _
        rw [ih hk', update_cycle, if_neg (Nat.succ_ne_zero k), List.map_append]
        have hbase' : ∀ l ∈ base,
            strReplace l (cyclesLine (k + 1) N) (cyclesLine (k + 2) N) = l := by
          intro l hl
          refine strReplace_of_not_infix l _ _ (fun hinf => hbase l hl ?_)
          exact ((key_prefix_cyclesLine (k + 1) N).isInfix).trans hinf
        rw [List.map_congr_left hbase']
        simp only [List.map_id_fun', id, List.map_cons, List.map_nil]
        rw [strReplace_self _ _ (cyclesLine_ne_nil (k + 1) N)]
  obtain ⟨m, rfl⟩ : ∃ m, N = m + 1 := ⟨N - 1, by omega⟩
  refine ⟨key, ?_, ?_, ?_⟩
  · exact key m (by omega)
  · rw [key 0 (by omega)]
    simp
  · intro k h1 hk
    obtain ⟨j, rfl⟩ : ∃ j, k = j + 1 := ⟨k - 1, by omega⟩
    rw [key (j + 1) hk, key j (by omega)]
    simp

/-- C8 witness: a two-cycle run on an empty base log ends with the single
line cycles_done 2/2. -/
theorem update_cycle_progress_witness :
    runUpdates [] 2 2 = [] ++ [cyclesLine 2 2] :=
  (update_cycle_progress 2 [] (by simp) (by norm_num)).2.1

end ALDmof
